import Mathlib

/-!
Verification of `tools/scaffold_from_tree.py`.

The Python module converts an ASCII/Unicode tree diagram embedded in Markdown
into a directory/file scaffold.  This file gives a shallow embedding of its
functions over `List Char` (modelling Python `str` as a sequence of code
points) and an explicit filesystem state for the scaffold builder, and proves
or refutes the specification claims about them.

Python exceptions (the `IndexError` raised by `[-1]` on an empty list and by
`list.pop()` on an empty list, and the `OSError`s raised by `Path.mkdir` /
`Path.write_text` on conflicting filesystem states) are modelled by `Option`:
`none` means the Python call raises.
-/

namespace ScaffoldTree

/-- Python strings are sequences of code points; we model them as `List Char`. -/
abbrev PyStr := List Char

/-- Convenience coercion from a Lean string literal to the model type. -/
def pyStr (s : String) : PyStr := s.toList

/-- The backtick character (code point 96), written via `Char.ofNat`. -/
def btick : Char := Char.ofNat 96

/-- Python whitespace as matched by `str.strip()` / `str.split()` / regex `\s`
on the ASCII range (the inputs of this tool never contain the non-ASCII Unicode
whitespace code points that Python would additionally match). -/
def pyIsSpace (c : Char) : Bool :=
  c = ' ' || c = '\t' || c = '\n' || c = '\r' || c = '\x0b' || c = '\x0c'

/-- Membership in `TREE_CHARS = "│├└─"` from the source. -/
def isTreeChar (c : Char) : Bool :=
  c = '│' || c = '├' || c = '└' || c = '─'

/-- Membership in the character class `[│├└]` used for the depth count. -/
def isDepthChar (c : Char) : Bool :=
  c = '│' || c = '├' || c = '└'

/-- Membership in the leading-run class `[\s│]` of the indent regex. -/
def isIndentChar (c : Char) : Bool :=
  pyIsSpace c || c = '│'

/-- Strip characters satisfying `p` from the left end (Python `str.lstrip`). -/
def lstripP (p : Char → Bool) (s : PyStr) : PyStr := s.dropWhile p

/-- Strip characters satisfying `p` from the right end (Python `str.rstrip`). -/
def rstripP (p : Char → Bool) (s : PyStr) : PyStr :=
  (s.reverse.dropWhile p).reverse

/-- Strip characters satisfying `p` from both ends (Python `str.strip(chars)`). -/
def stripP (p : Char → Bool) (s : PyStr) : PyStr := rstripP p (lstripP p s)

/-- Python `str.strip()` with no arguments: strip whitespace from both ends. -/
def pyStrip (s : PyStr) : PyStr := stripP pyIsSpace s

/-- Helper for `pySplitWs`: accumulates the current (reversed) token. -/
def splitWsAux (cur : PyStr) : PyStr → List PyStr
  | [] => if cur = [] then [] else [cur.reverse]
  | c :: rest =>
    if pyIsSpace c then
      if cur = [] then splitWsAux [] rest
      else cur.reverse :: splitWsAux [] rest
    else splitWsAux (c :: cur) rest

/-- Python `str.split()` with no arguments: split on whitespace runs, yielding
no empty tokens (so the result is `[]` for an all-whitespace string). -/
def pySplitWs (s : PyStr) : List PyStr := splitWsAux [] s

/-- Splitting a string on the `/` character, Python `str.split("/")`
(also the segment decomposition performed by `pathlib` when a relative path
string such as `"a/b.txt"` is joined onto a `Path`). -/
def splitSegs : PyStr → List PyStr
  | [] => [[]]
  | c :: rest =>
    if c = '/' then [] :: splitSegs rest
    else
      match splitSegs rest with
      | [] => [[c]]
      | t :: ts => (c :: t) :: ts

/-- Python `"/".join(l)`. -/
def joinSlash : List PyStr → PyStr
  | [] => []
  | [x] => x
  | x :: y :: ys => x ++ '/' :: joinSlash (y :: ys)

/-- True iff `needle` occurs as a contiguous substring of the haystack
(Python `needle in haystack`). -/
def containsSub (needle : PyStr) : PyStr → Bool
  | [] => needle = []
  | c :: rest => decide (needle <+: (c :: rest)) || containsSub needle rest

/-! ## The Block Extractor: `extract_tree_block`

The source collects fenced code blocks with
`re.findall(r"```(?:[a-zA-Z0-9_-]*)\n(.*?)```", markdown, flags=re.S)`:
at each position the engine matches three backticks, a maximal run of
language-tag characters, a newline, then a non-greedy capture up to the nearest
closing three backticks; matches are non-overlapping and scanning resumes
after each match. -/

/-- Characters of the language-tag class `[a-zA-Z0-9_-]`. -/
def isTagChar (c : Char) : Bool :=
  ('a' ≤ c && c ≤ 'z') || ('A' ≤ c && c ≤ 'Z') || ('0' ≤ c && c ≤ '9') ||
    c = '_' || c = '-'

/-- Find the nearest closing fence: returns the capture before the first
occurrence of three backticks, and the remainder after them. -/
def findClose : PyStr → Option (PyStr × PyStr)
  | [] => none
  | c :: rest =>
    if (c :: rest).take 3 = [btick, btick, btick] then some ([], (c :: rest).drop 3)
    else
      match findClose rest with
      | some (cap, rem) => some (c :: cap, rem)
      | none => none

/-- Try to match the fence pattern at the current position: three backticks, a
maximal tag run, a newline, then the nearest closing fence.  Returns the
capture and the remainder after the whole match.  (The regex's greedy tag run
cannot backtrack usefully: a shorter tag run still ends at a non-newline tag
character.) -/
def tryFence (cs : PyStr) : Option (PyStr × PyStr) :=
  if cs.take 3 = [btick, btick, btick] then
    let afterTag := (cs.drop 3).dropWhile isTagChar
    match afterTag with
    | '\n' :: body => findClose body
    | _ => none
  else none

/-- The scanning loop of `re.findall`: on a match, emit the capture and resume
after the match; otherwise advance one character.  `fuel` bounds the recursion;
each step consumes at least one character, so `fuel = cs.length` suffices. -/
def findFencesAux : Nat → PyStr → List PyStr
  | 0, _ => []
  | _ + 1, [] => []
  | fuel + 1, c :: rest =>
    match tryFence (c :: rest) with
    | some (cap, rem) => cap :: findFencesAux fuel rem
    | none => findFencesAux fuel rest

/-- All fenced-block captures of the input, in scanning order
(`fences` in the source). -/
def findFences (cs : PyStr) : List PyStr := findFencesAux cs.length cs

/-- The tree-likeness test of the source:
`any(ch in block for ch in TREE_CHARS) or (" /" in block) or ("\\" in block)`.
Note the second disjunct is the two-character substring space-slash, not a bare
forward slash. -/
def looksTree (b : PyStr) : Bool :=
  b.any isTreeChar || containsSub [' ', '/'] b || b.any (fun c => c = '\\')

/-- `sorted(fences, key=len, reverse=True)`: the stable sort placing longer
blocks first.  Python's sort is stable; `List.insertionSort` with this relation
is stable as well (an element is inserted after every earlier element of equal
length), and a stable sort by a fixed key is unique, so the two agree. -/
def sortLenDesc (fences : List PyStr) : List PyStr :=
  fences.insertionSort (fun a b => b.length ≤ a.length)

/-- The `for block in fences` selection loop: first block passing `looksTree`. -/
def firstTreey : List PyStr → Option PyStr
  | [] => none
  | b :: rest => if looksTree b then some b else firstTreey rest

/-- `extract_tree_block`: prefer the longest fenced block that looks like a
tree; fall back to the longest fenced block, then to the whole (stripped)
input. -/
def extract_tree_block (markdown : PyStr) : PyStr :=
  let fences := findFences markdown
  match fences with
  | [] => pyStrip markdown
  | f :: fs =>
    let sorted := sortLenDesc (f :: fs)
    match firstTreey sorted with
    | some b => pyStrip b
    | none =>
      match sorted with
      | [] => []
      | b :: _ => pyStrip b

/-! ## The Tree Parser: `normalize_root_and_entries`

The source iterates over `lines[1:]`; the embedding keeps the full line list
around because the lookahead re-derives the current position with
`lines.index(original_line)` (first occurrence of equal text). -/

/-- Length of the leading run matched by the regex `^([\s│]*)`
(`indent_level` in the source). -/
def leadingRun (ln : PyStr) : Nat := (ln.takeWhile isIndentChar).length

/-- The regex substitution `re.sub(r"^├──\s*|^└──\s*|^──\s*", "", s)`.
It is a no-op in context (the preceding substitution already removed every
leading tree character), but is embedded faithfully. -/
def stripBranchMarker (s : PyStr) : PyStr :=
  if s.take 3 = ['├', '─', '─'] then (s.drop 3).dropWhile pyIsSpace
  else if s.take 3 = ['└', '─', '─'] then (s.drop 3).dropWhile pyIsSpace
  else if s.take 2 = ['─', '─'] then (s.drop 2).dropWhile pyIsSpace
  else s

/-- The label of a line before comment stripping: the source's
`s = re.sub(r"^[\s│├└─]+", "", ln)`, then the branch-marker substitution,
then `s.strip()`. -/
def lineLabel (ln : PyStr) : PyStr :=
  pyStrip (stripBranchMarker (ln.dropWhile (fun c => pyIsSpace c || isTreeChar c)))

/-- The label after comment stripping: `s.split("#", 1)[0].strip()`. -/
def lineName (ln : PyStr) : PyStr :=
  pyStrip ((lineLabel ln).takeWhile (fun c => c ≠ '#'))

/-- The trailing-separator test `s.endswith("/") or s.endswith(os.sep)`
(`os.sep` is `/` on the POSIX platform being modelled). -/
def labelEndsSlash (ln : PyStr) : Bool :=
  (lineName ln).getLast? = some '/'

/-- The bare entry name, `s.rstrip("/").strip()`. -/
def lineFilename (ln : PyStr) : PyStr :=
  pyStrip (rstripP (fun c => c = '/') (lineName ln))

/-- The depth count `len(re.findall(r'[│├└]', original_line[:indent_level + 10]))`. -/
def lineTreeDepth (ln : PyStr) : Nat :=
  ((ln.take (leadingRun ln + 10)).filter isDepthChar).length

/-- Python `lines.index(ln)`: index of the first occurrence of equal text
(`len lines` when absent, which cannot happen at the call sites). -/
def idxOfLine : List PyStr → PyStr → Nat
  | [], _ => 0
  | l :: rest, ln => if l = ln then 0 else idxOfLine rest ln + 1

/-- The forward lookahead over `next_lines`:
skip lines that are blank after stripping; the first remaining line with a
strictly larger leading run promotes the entry to a directory, the first with a
less-or-equal leading run terminates the scan without promotion. -/
def lookaheadIsDir (indent : Nat) : List PyStr → Bool
  | [] => false
  | l :: rest =>
    if pyStrip l = [] then lookaheadIsDir indent rest
    else if leadingRun l > indent then true
    else false

/-- The `while len(dir_stack) >= tree_depth: dir_stack.pop()` loop.
Python's `list.pop()` removes the last element and raises `IndexError` on an
empty list; with `tree_depth = 0` the guard `len(dir_stack) >= 0` always holds,
so the loop always ends in that error, modelled as `none`. -/
def popWhileGeAux : Nat → List PyStr → Nat → Option (List PyStr)
  | 0, _, _ => none
  | fuel + 1, stack, d =>
    if stack.length ≥ d then
      match stack with
      | [] => none
      | _ :: _ => popWhileGeAux fuel stack.dropLast d
    else some stack

/-- Entry point for the pop loop; each iteration removes one element, so
`length + 1` iterations always suffice (the fuel-exhausted `none` of the
helper is unreachable). -/
def popWhileGe (stack : List PyStr) (d : Nat) : Option (List PyStr) :=
  popWhileGeAux (stack.length + 1) stack d

/-- Parser state: the entry list built so far and the directory stack
(`entries` and `dir_stack` in the source, both in source order). -/
structure PState where
  entries : List (PyStr × Bool)
  dirStack : List PyStr
deriving DecidableEq, Repr

/-- The `rel_path` assembly of the loop body: `"/".join(dir_stack +
[filename])` when the stack is nonempty, else the bare filename. -/
def relPathOf (stack2 : List PyStr) (filename : PyStr) : PyStr :=
  if stack2 ≠ [] then joinSlash (stack2 ++ [filename]) else filename

/-- One iteration of the `for ln in lines[1:]` loop of
`normalize_root_and_entries`.  `lines` is the full line list (used by the
lookahead via `lines.index`).  Returns `none` when the iteration raises
(`pop` from an empty directory stack). -/
def processLine (lines : List PyStr) (st : PState) (ln : PyStr) : Option PState :=
  if lineLabel ln = [] then some st
  else if lineName ln = [] then some st
  else
    let is_dir :=
      if labelEndsSlash ln then true
      else lookaheadIsDir (leadingRun ln) (lines.drop (idxOfLine lines ln + 1))
    let filename := lineFilename ln
    match popWhileGe st.dirStack (lineTreeDepth ln) with
    | none => none
    | some stack2 =>
      some ⟨st.entries ++ [(relPathOf stack2 filename, is_dir)],
            if is_dir then stack2 ++ [filename] else stack2⟩

/-- The loop of `normalize_root_and_entries` over the given tail of lines. -/
def processLines (lines : List PyStr) : List PyStr → PState → Option PState
  | [], st => some st
  | ln :: rest, st =>
    match processLine lines st ln with
    | none => none
    | some st2 => processLines lines rest st2

/-- Whitespace-separated tokens of the first line after the two strips,
`root_line.strip(TREE_CHARS + " ").strip().split()`. -/
def rootTokens (l0 : PyStr) : List PyStr :=
  pySplitWs (pyStrip (stripP (fun c => isTreeChar c || c = ' ') (pyStrip l0)))

/-- Minimal model of `pathlib.Path` construction for the root name: `Path("")`
prints as `"."`; further `Path` normalisation (collapsing `.` or doubled
separators) is not exercised by any claim input and is not modelled. -/
def pathOf (s : PyStr) : PyStr := if s = [] then ['.'] else s

/-- The Tree Parser `normalize_root_and_entries`.  Returns
`some (rootName, entries)`, or `none` when the Python function raises an
`IndexError` (empty root token via `split()[-1]`, or a `pop` from an empty
directory stack). -/
def normalize_root_and_entries (lines : List PyStr) :
    Option (PyStr × List (PyStr × Bool)) :=
  match lines with
  | [] => some (['.'], [])
  | l0 :: rest =>
    match (rootTokens l0).getLast? with
    | none => none
    | some tok =>
      let root_name := pyStrip (tok.filter (fun c => ¬(isTreeChar c || c = ' ')))
      let root_dir := pathOf (rstripP (fun c => c = '/') root_name)
      match processLines lines rest ⟨[], []⟩ with
      | none => none
      | some st => some (root_dir, st.entries)

/-! ## The Scaffold Builder: `create_scaffold`

Filesystem paths are modelled as segment lists (`pathlib` joins a relative
string such as `"a/b.txt"` onto a base path segment-wise), the filesystem as an
association list from paths to nodes (first binding wins, updates prepend), and
the `OSError`s of `Path.mkdir` / `Path.write_text` as `none`.  On a real
filesystem `Path.mkdir(parents=True, exist_ok=True)` either succeeds or raises
before creating anything (a missing prefix strictly below an existing node is
impossible), so a failed call leaves the modelled state unchanged. -/

/-- A path, as its list of segments. -/
abbrev PathSegs := List PyStr

/-- A filesystem node: a directory or a regular file with its content. -/
inductive Node where
  | dir : Node
  | file : PyStr → Node
deriving DecidableEq, Repr

/-- Whether a node is a regular file (Python `Path.is_file()`). -/
def Node.isFile : Node → Bool
  | .dir => false
  | .file _ => true

/-- The size `Path.stat().st_size` of a file node. -/
def Node.size : Node → Nat
  | .dir => 0
  | .file c => c.length

/-- The filesystem state: an association list from paths to nodes. -/
abbrev FS := List (PathSegs × Node)

/-- Look up the node at a path (first binding wins). -/
def FS.lookup : FS → PathSegs → Option Node
  | [], _ => none
  | (q, n) :: rest, p => if q = p then some n else FS.lookup rest p

/-- Bind a path to a node (prepend; shadows any earlier binding). -/
def FS.set (fs : FS) (p : PathSegs) (n : Node) : FS := (p, n) :: fs

/-- An emitted action `(kind, path)` with kind `"mkdir"` or `"touch"`. -/
abbrev Action := String × PathSegs

/-- Walk the prefixes of a path (accumulated in `done`), creating each missing
one as a directory; an existing directory is accepted, an existing file raises
(`exist_ok=True` only forgives directories, and a file prefix raises before
anything is created). -/
def mkdirPrefixes (fs : FS) (done : PathSegs) : List PyStr → Option FS
  | [] => some fs
  | seg :: rest =>
    let q := done ++ [seg]
    match fs.lookup q with
    | some .dir => mkdirPrefixes fs q rest
    | some (.file _) => none
    | none => mkdirPrefixes (fs.set q .dir) q rest

/-- `Path.mkdir(parents=True, exist_ok=True)`. -/
def mkdirParents (fs : FS) (p : PathSegs) : Option FS := mkdirPrefixes fs [] p

/-- The file branch of the `create_scaffold` loop body when not `dry`:
ensure the parent directory chain, then apply the write policy of the source:

* target exists, `force` and it is an empty file: overwrite;
* target exists, `force` and it is a (non-empty) file: overwrite anyway;
* target exists otherwise (no `force`, or not a regular file): keep it;
* target absent: write `default_file_content or ""`.

`Path.write_text` replaces the full content. -/
def touchFile (force : Bool) (dfc : PyStr) (fs : FS) (target : PathSegs) :
    Option FS :=
  match mkdirParents fs target.dropLast with
  | none => none
  | some fs1 =>
    match fs1.lookup target with
    | some n =>
      if force && n.isFile && n.size == 0 then some (fs1.set target (Node.file dfc))
      else if force && n.isFile then some (fs1.set target (Node.file dfc))
      else some fs1
    | none => some (fs1.set target (Node.file dfc))

/-- The `for rel, is_dir in entries` loop of `create_scaffold`.  Threads the
action list and the filesystem; an exception aborts the run, returning `none`
for the action list and the state reached so far. -/
def scaffoldLoop (root_abs : PathSegs) (dry force : Bool) (dfc : PyStr) :
    List (PyStr × Bool) → List Action → FS → Option (List Action) × FS
  | [], acts, fs => (some acts, fs)
  | (rel, is_dir) :: rest, acts, fs =>
    let target := root_abs ++ splitSegs rel
    if is_dir then
      let acts2 := acts ++ [("mkdir", target)]
      if dry then scaffoldLoop root_abs dry force dfc rest acts2 fs
      else
        match mkdirParents fs target with
        | none => (none, fs)
        | some fs1 => scaffoldLoop root_abs dry force dfc rest acts2 fs1
    else
      let acts2 := acts ++ [("touch", target)]
      if dry then scaffoldLoop root_abs dry force dfc rest acts2 fs
      else
        match touchFile force dfc fs target with
        | none => (none, fs)
        | some fs1 => scaffoldLoop root_abs dry force dfc rest acts2 fs1

/-- `create_scaffold`: emit and (unless `dry`) perform the root `mkdir`, then
process each entry in order.  Returns the action list (`none` when the Python
function raises partway) and the final filesystem state. -/
def create_scaffold (root : PathSegs) (entries : List (PyStr × Bool))
    (base_root : PathSegs) (dry force : Bool) (dfc : PyStr) (fs : FS) :
    Option (List Action) × FS :=
  let root_abs := base_root ++ root
  let acts := [(("mkdir" : String), root_abs)]
  if dry then scaffoldLoop root_abs dry force dfc entries acts fs
  else
    match mkdirParents fs root_abs with
    | none => (none, fs)
    | some fs1 => scaffoldLoop root_abs dry force dfc entries acts fs1

/-- The action planned for one entry: `mkdir` for directories, `touch` for
files, at the target below `root_abs`. -/
def plannedAction (root_abs : PathSegs) (e : PyStr × Bool) : Action :=
  (if e.2 then ("mkdir" : String) else ("touch" : String), root_abs ++ splitSegs e.1)

/-- The full action list any run would emit: the root `mkdir` followed by one
planned action per entry. -/
def plannedActions (root : PathSegs) (entries : List (PyStr × Bool))
    (base_root : PathSegs) : List Action :=
  (("mkdir" : String), base_root ++ root) ::
    entries.map (plannedAction (base_root ++ root))

/-! ## Specification-side definitions

These formalise the wording of the claims, to be compared with the behaviour
of the embedded source functions. -/

/-- Subsumption of filesystem states: every binding of the first is visible in
the second. -/
def FS.Sub (fs g : FS) : Prop := ∀ p n, FS.lookup fs p = some n → FS.lookup g p = some n

/-- Claim C3's lookahead condition, as stated: scanning the given lines in
order, a line with a strictly larger leading run appears before any line with
a less-or-equal leading run. -/
def promotedByScan (indent : Nat) (after : List PyStr) : Prop :=
  ∃ i, ∃ h : i < after.length,
    indent < leadingRun (after.get ⟨i, h⟩) ∧
    ∀ j, ∀ hj : j < i, ¬(leadingRun (after.get ⟨j, Nat.lt_trans hj h⟩) ≤ indent)

/-- The immediate parent prefix of a relative path: all segments but the last,
re-joined with `/`. -/
def parentPrefix (p : PyStr) : PyStr := joinSlash ((splitSegs p).dropLast)

/-- Claim C6, as stated: every entry whose relative path has more than one
segment is preceded by a directory entry for its immediate parent prefix. -/
def parentsPrecede (es : List (PyStr × Bool)) : Prop :=
  ∀ i, ∀ hi : i < es.length, 1 < (splitSegs (es.get ⟨i, hi⟩).1).length →
    (parentPrefix (es.get ⟨i, hi⟩).1, true) ∈ es.take i

/-- Claim C5's qualifying test, as stated: the block contains a tree-connector
character or a path separator (forward or back slash). -/
def claimTreey (b : PyStr) : Bool :=
  b.any isTreeChar || b.any (fun c => c = '/') || b.any (fun c => c = '\\')

/-- Claim C5's selection, as stated: the first block of the length-descending
list satisfying `claimTreey`. -/
def claimSelectBlock : List PyStr → Option PyStr
  | [] => none
  | b :: rest => if claimTreey b then some b else claimSelectBlock rest

/-- The candidate line sequence of claim C1. -/
def C1lines : List PyStr :=
  [pyStr ("root/"), pyStr ("├── a/"), pyStr ("│   └── b.txt"), pyStr ("└── c.txt")]

/-- The candidate line sequence of the C3 counterexample: the second and the
fourth lines carry identical text. -/
def C3lines : List PyStr :=
  [pyStr ("root/"), pyStr ("├── a"), pyStr ("│   ├── x.txt"), pyStr ("├── a")]

/-- The markdown input of the C5 counterexample: a longer fenced block of
noise and a shorter fenced block `a/b` containing a forward slash but neither
a space-slash pair nor a backslash nor a connector. -/
def C5md : PyStr := pyStr ("```\nzzzzzzzz\n```\n```\na/b\n```")

/-- The parser-state invariant used for C6: the directory stack holds
slash-free names, every nonempty stack prefix has already been emitted as a
directory entry (with its joined path), and the entries so far satisfy the
parents-precede-children property. -/
def StackInv (st : PState) : Prop :=
  (∀ d ∈ st.dirStack, ('/' : Char) ∉ d) ∧
  (∀ k, k < st.dirStack.length →
    (joinSlash (st.dirStack.take (k + 1)), true) ∈ st.entries) ∧
  parentsPrecede st.entries

/-! ## Helper lemmas about the pop loop -/

theorem popWhileGeAux_zero :
    ∀ (fuel : Nat) (s : List PyStr), s.length < fuel → popWhileGeAux fuel s 0 = none := by
  intro fuel
  induction fuel with
  | zero => intro s hs; omega
  | succ n ih =>
    intro s hs
    cases s with
    | nil => simp [popWhileGeAux]
    | cons a tl =>
      have h1 : (a :: tl).length ≥ 0 := Nat.zero_le _
      have h2 : (a :: tl).dropLast.length < n := by
        simp [List.length_dropLast] at *; omega
      simp only [popWhileGeAux, if_pos h1]
      exact ih _ h2

/-- With a zero tree depth the pop loop always raises. -/
theorem popWhileGe_zero (s : List PyStr) : popWhileGe s 0 = none :=
  popWhileGeAux_zero _ s (Nat.lt_succ_self _)

theorem popWhileGeAux_pos (d : Nat) (hd : 1 ≤ d) :
    ∀ (fuel : Nat) (s : List PyStr), s.length < fuel →
      popWhileGeAux fuel s d = some (s.take (d - 1)) := by
  intro fuel
  induction fuel with
  | zero => intro s hs; omega
  | succ n ih =>
    intro s hs
    cases s with
    | nil =>
      have : ¬ (([] : List PyStr).length ≥ d) := by simp; omega
      simp [popWhileGeAux, this]
      omega
    | cons a tl =>
      by_cases h : (a :: tl).length ≥ d
      · have h2 : (a :: tl).dropLast.length < n := by
          simp [List.length_dropLast] at *; omega
        simp only [popWhileGeAux, if_pos h]
        rw [ih _ h2, List.dropLast_eq_take, List.take_take]
        congr 2
        simp at h ⊢
        omega
      · simp only [popWhileGeAux, if_neg h]
        rw [List.take_of_length_le]
        simp at h ⊢
        omega

/-- With a positive tree depth the pop loop keeps the first `d - 1` stack
elements (popping from the end while the length is at least `d`). -/
theorem popWhileGe_pos (s : List PyStr) (d : Nat) (hd : 1 ≤ d) :
    popWhileGe s d = some (s.take (d - 1)) :=
  popWhileGeAux_pos d hd _ s (Nat.lt_succ_self _)

/-! ## Totality of the parser away from the two crash conditions -/

theorem processLine_isSome (lines : List PyStr) (st : PState) (ln : PyStr)
    (h : lineName ln ≠ [] → 1 ≤ lineTreeDepth ln) :
    ∃ st2, processLine lines st ln = some st2 := by
  unfold processLine
  by_cases h1 : lineLabel ln = []
  · exact ⟨st, by simp [h1]⟩
  by_cases h2 : lineName ln = []
  · exact ⟨st, by simp [h1, h2]⟩
  rw [popWhileGe_pos _ _ (h h2)]
  simp [h1, h2]

theorem processLines_isSome (lines : List PyStr) :
    ∀ (rest : List PyStr) (st : PState),
      (∀ ln ∈ rest, lineName ln ≠ [] → 1 ≤ lineTreeDepth ln) →
      ∃ st2, processLines lines rest st = some st2 := by
  intro rest
  induction rest with
  | nil => intro st _; exact ⟨st, rfl⟩
  | cons ln tl ih =>
    intro st h
    obtain ⟨st1, h1⟩ := processLine_isSome lines st ln (h ln (by simp))
    obtain ⟨st2, h2⟩ := ih st1 (fun l hl => h l (by simp [hl]))
    exact ⟨st2, by simp [processLines, h1, h2]⟩

/-! ## Claim C1 -/

/-- C1: parsing `["root/", "├── a/", "│   └── b.txt", "└── c.txt"]` with the
Tree Parser yields root name `root` and exactly the entries
`[("a", dir), ("a/b.txt", file), ("c.txt", file)]` in that order, and the
directory stack holds exactly `["a"]` at the moment `"│   └── b.txt"` starts
being processed (and still does after it is processed, it being a file). -/
theorem C1_roundtrip_example :
    normalize_root_and_entries C1lines =
      some (pyStr ("root"),
        [(pyStr ("a"), true), (pyStr ("a/b.txt"), false), (pyStr ("c.txt"), false)]) ∧
    (processLines C1lines [pyStr ("├── a/")] ⟨[], []⟩).map PState.dirStack =
      some [pyStr ("a")] ∧
    (processLines C1lines [pyStr ("├── a/"), pyStr ("│   └── b.txt")] ⟨[], []⟩).map
        PState.dirStack = some [pyStr ("a")] := by
  refine ⟨by decide, by decide, by decide⟩

/-! ## Claim C2 -/

/-- C2 counterexample: on the candidate line sequence `["─"]` (a line of one
tree-connector character, which passes the Line Filter) the Tree Parser
raises `IndexError`: stripping the connectors leaves an empty root line, and
`root_name.split()[-1]` indexes an empty list.  So the parser does not return
an empty entry list for every malformed input — it can raise. -/
theorem C2_counterexample : normalize_root_and_entries [pyStr ("─")] = none := by
  decide

/-- C2 amended: the Tree Parser raises no exception provided (a) the first
candidate line still has a nonempty token after stripping tree-connector and
space characters, and (b) every later line with a nonempty extracted label has
at least one `│`/`├`/`└` connector in its depth-count window (otherwise the
`while len(dir_stack) >= tree_depth` loop pops an empty stack).  An empty
candidate line sequence yields the current-directory marker `.` and an empty
entry list. -/
theorem C2_no_crash_amended (l0 : PyStr) (rest : List PyStr)
    (hroot : rootTokens l0 ≠ [])
    (hdepth : ∀ ln ∈ rest, lineName ln ≠ [] → 1 ≤ lineTreeDepth ln) :
    (∃ res, normalize_root_and_entries (l0 :: rest) = some res) ∧
      normalize_root_and_entries [] = some (pyStr ("."), []) := by
  constructor
  · cases htok : (rootTokens l0).getLast? with
    | none => exact absurd (List.getLast?_eq_none_iff.mp htok) hroot
    | some tok =>
      obtain ⟨st2, hst2⟩ := processLines_isSome (l0 :: rest) rest ⟨[], []⟩ hdepth
      have hres : normalize_root_and_entries (l0 :: rest) =
          some (pathOf (rstripP (fun c => c = '/')
            (pyStrip (tok.filter (fun c => ¬(isTreeChar c || c = ' '))))), st2.entries) := by
        simp only [normalize_root_and_entries, htok, hst2]
      exact ⟨_, hres⟩
  · rfl

/-- Witness for the amended C2 at a concrete input. -/
theorem C2_no_crash_amended_witness :
    (∃ res, normalize_root_and_entries [pyStr ("root/"), pyStr ("├── a/")] = some res) ∧
      normalize_root_and_entries [] = some (pyStr ("."), []) :=
  C2_no_crash_amended (pyStr ("root/")) [pyStr ("├── a/")] (by decide)
    (by decide)

/-! ## Claim C3 -/

theorem lineLabel_nil_name (ln : PyStr) (h : lineLabel ln = []) : lineName ln = [] := by
  simp [lineName, h, pyStrip, stripP, lstripP, rstripP]

/-- On blank-free line lists the code's lookahead agrees with the claim's
scan description: promotion happens exactly when a strictly deeper line
appears before any line of less-or-equal depth. -/
theorem lookahead_iff_promoted (indent : Nat) :
    ∀ (after : List PyStr), (∀ l ∈ after, pyStrip l ≠ []) →
      (lookaheadIsDir indent after = true ↔ promotedByScan indent after) := by
  intro after
  induction after with
  | nil =>
    intro _
    simp only [lookaheadIsDir]
    constructor
    · intro h; cases h
    · rintro ⟨i, hi, -, -⟩; simp at hi
  | cons l rest ih =>
    intro hblank
    have hl : pyStrip l ≠ [] := hblank l (by simp)
    by_cases hr : indent < leadingRun l
    · simp only [lookaheadIsDir, if_neg hl, if_pos hr]
      constructor
      · intro _
        exact ⟨0, by simp, by simpa using hr, fun j hj => by omega⟩
      · intro _; trivial
    · simp only [lookaheadIsDir, if_neg hl, if_neg hr]
      constructor
      · intro h; cases h
      · rintro ⟨i, hi, hgt, hall⟩
        cases i with
        | zero => exact absurd hgt (by simpa using hr)
        | succ k =>
          exact absurd (Nat.not_lt.mp hr) (by simpa using hall 0 (Nat.succ_pos k))

/-- C3 counterexample: the fourth candidate line `"├── a"` has no trailing
separator and no lines after its own position, so the claimed scan (from the
current index) finds nothing and classifies it as a file; but the code derives
the scan start with `lines.index(original_line)`, which returns the position of
the textually equal second line, so the deeper third line promotes the fourth
one to a directory — the parser emits `("a", dir)` for it. -/
theorem C3_counterexample :
    normalize_root_and_entries C3lines =
      some (pyStr ("root"),
        [(pyStr ("a"), true), (pyStr ("a/x.txt"), false), (pyStr ("a"), true)]) ∧
    labelEndsSlash (pyStr ("├── a")) = false ∧
    ¬ promotedByScan (leadingRun (pyStr ("├── a"))) (C3lines.drop 4) := by
  refine ⟨by decide, by decide, ?_⟩
  rintro ⟨i, hi, -, -⟩
  have hlen : (C3lines.drop 4).length = 0 := by decide
  omega

/-- C3 amended: for a line whose extracted label is nonempty and does not end
with a path separator (and whose depth window has a connector, so processing
does not raise), the parser classifies it as a directory exactly when the scan
of the claim succeeds — but started after the position of the *first* line
whose text equals the current line's (`lines.index`), not necessarily the
current position.  Candidate lines are never blank, hence the blank-free
hypothesis. -/
theorem C3_lookahead_amended (lines : List PyStr) (st : PState) (ln : PyStr)
    (hname : lineName ln ≠ [])
    (hslash : labelEndsSlash ln = false)
    (hdepth : 1 ≤ lineTreeDepth ln)
    (hblank : ∀ l ∈ lines, pyStrip l ≠ []) :
    ∃ st2 p b, processLine lines st ln = some st2 ∧
      st2.entries = st.entries ++ [(p, b)] ∧
      (b = true ↔
        promotedByScan (leadingRun ln) (lines.drop (idxOfLine lines ln + 1))) := by
  have hlabel : lineLabel ln ≠ [] := fun h => hname (lineLabel_nil_name ln h)
  unfold processLine
  rw [if_neg hlabel, if_neg hname, popWhileGe_pos _ _ hdepth]
  simp only [hslash, Bool.false_eq_true, if_false]
  refine ⟨_, _, _, rfl, rfl, ?_⟩
  exact lookahead_iff_promoted _ _
    (fun l hl => hblank l (List.drop_subset _ _ hl))

/-- Witness for the amended C3 at a concrete input (the `b.txt` line of the
C1 tree). -/
theorem C3_lookahead_amended_witness :
    ∃ st2 p b,
      processLine C1lines ⟨[], [pyStr ("a")]⟩ (pyStr ("│   └── b.txt")) = some st2 ∧
      st2.entries = PState.entries ⟨[], [pyStr ("a")]⟩ ++ [(p, b)] ∧
      (b = true ↔
        promotedByScan (leadingRun (pyStr ("│   └── b.txt")))
          (C1lines.drop (idxOfLine C1lines (pyStr ("│   └── b.txt")) + 1))) :=
  C3_lookahead_amended C1lines ⟨[], [pyStr ("a")]⟩ (pyStr ("│   └── b.txt"))
    (by decide) (by decide) (by decide) (by decide)

/-! ## Claim C5 -/

instance : IsTotal PyStr (fun a b => b.length ≤ a.length) :=
  ⟨fun a b => Nat.le_total b.length a.length⟩

instance : IsTrans PyStr (fun a b => b.length ≤ a.length) :=
  ⟨fun _ _ _ h1 h2 => Nat.le_trans h2 h1⟩

theorem sortLenDesc_perm (l : List PyStr) : (sortLenDesc l).Perm l :=
  List.perm_insertionSort _ l

theorem sortLenDesc_sorted (l : List PyStr) :
    List.Pairwise (fun a b : PyStr => b.length ≤ a.length) (sortLenDesc l) :=
  List.sorted_insertionSort _ l

theorem firstTreey_some :
    ∀ (l : List PyStr) (b : PyStr), firstTreey l = some b →
      looksTree b = true ∧
        ∃ l1 l2, l = l1 ++ b :: l2 ∧ ∀ x ∈ l1, looksTree x = false := by
  intro l
  induction l with
  | nil => intro b h; cases h
  | cons a rest ih =>
    intro b h
    by_cases ha : looksTree a = true
    · simp only [firstTreey, if_pos ha] at h
      cases h
      exact ⟨ha, [], rest, rfl, by simp⟩
    · simp only [firstTreey, if_neg ha] at h
      obtain ⟨hb, l1, l2, hsplit, hall⟩ := ih b h
      refine ⟨hb, a :: l1, l2, by simp [hsplit], ?_⟩
      intro x hx
      rcases List.mem_cons.mp hx with hx | hx
      · subst hx; simpa using ha
      · exact hall x hx

theorem firstTreey_none :
    ∀ (l : List PyStr), firstTreey l = none → ∀ x ∈ l, looksTree x = false := by
  intro l
  induction l with
  | nil => intro _ x hx; cases hx
  | cons a rest ih =>
    intro h x hx
    by_cases ha : looksTree a = true
    · simp [firstTreey, ha] at h
    · rcases List.mem_cons.mp hx with hx | hx
      · subst hx; simpa using ha
      · exact ih (by simpa [firstTreey, ha] using h) x hx

/-- C5 counterexample: by the claim the first length-descending block with a
path separator — the block `a/b` — should be returned, but the source tests
for the two-character substring `" /"` (space then slash), not for a bare
forward slash, so no block qualifies and the longest block `zzzzzzzz` is
returned instead. -/
theorem C5_counterexample :
    (claimSelectBlock (sortLenDesc (findFences C5md))).map pyStrip =
      some (pyStr ("a/b")) ∧
    extract_tree_block C5md = pyStr ("zzzzzzzz") ∧
    pyStr ("zzzzzzzz") ≠ pyStr ("a/b") := by
  refine ⟨by decide, by decide, by decide⟩

/-- C5 amended: with the qualifying test corrected to the code's — a
tree-connector character, the two-character sequence space-forward-slash, or a
backslash — the extractor returns the first qualifying block of the
length-descending (stable-sorted) fence list, trimmed; the longest block when
none qualifies; and the trimmed whole input when there is no fenced block at
all (in particular whenever the input also has no tree-connector characters,
as the claim puts it). -/
theorem C5_extract_amended (markdown : PyStr) :
    (findFences markdown = [] → extract_tree_block markdown = pyStrip markdown) ∧
    (findFences markdown ≠ [] →
      (sortLenDesc (findFences markdown)).Perm (findFences markdown) ∧
      List.Pairwise (fun a b : PyStr => b.length ≤ a.length)
        (sortLenDesc (findFences markdown)) ∧
      (∀ b, firstTreey (sortLenDesc (findFences markdown)) = some b →
        looksTree b = true ∧ extract_tree_block markdown = pyStrip b ∧
        ∃ l1 l2, sortLenDesc (findFences markdown) = l1 ++ b :: l2 ∧
          ∀ x ∈ l1, looksTree x = false) ∧
      (firstTreey (sortLenDesc (findFences markdown)) = none →
        (∀ x ∈ sortLenDesc (findFences markdown), looksTree x = false) ∧
        ∀ b bs, sortLenDesc (findFences markdown) = b :: bs →
          extract_tree_block markdown = pyStrip b)) := by
  cases hf : findFences markdown with
  | nil =>
    refine ⟨fun _ => ?_, fun h => absurd rfl h⟩
    simp [extract_tree_block, hf]
  | cons f fs =>
    refine ⟨fun h => absurd h (List.cons_ne_nil f fs), fun _ => ?_⟩
    refine ⟨by rw [← hf]; exact sortLenDesc_perm _, by rw [← hf]; exact sortLenDesc_sorted _,
      ?_, ?_⟩
    · intro b hb
      obtain ⟨hTree, l1, l2, hsplit, hall⟩ := firstTreey_some _ b hb
      refine ⟨hTree, ?_, l1, l2, hsplit, hall⟩
      simp [extract_tree_block, hf, hb]
    · intro hnone
      refine ⟨firstTreey_none _ hnone, ?_⟩
      intro b bs hsb
      rw [hsb] at hnone
      simp [extract_tree_block, hf, hnone, hsb]

/-- Witness for the amended C5 at concrete inputs exercising both the no-fence
branch and the qualifying-block branch. -/
theorem C5_extract_amended_witness :
    extract_tree_block (pyStr ("no fences here")) = pyStrip (pyStr ("no fences here")) ∧
    extract_tree_block (pyStr ("```\nx /y\n```")) = pyStrip (pyStr ("x /y\n")) :=
  ⟨(C5_extract_amended (pyStr ("no fences here"))).1 (by decide),
   (((C5_extract_amended (pyStr ("```\nx /y\n```"))).2 (by decide)).2.2.1
      (pyStr ("x /y\n")) (by decide)).2.1⟩

/-! ## Action-list lemmas for the Scaffold Builder -/

theorem scaffoldLoop_acts (ra : PathSegs) (dry force : Bool) (dfc : PyStr) :
    ∀ (entries : List (PyStr × Bool)) (acts : List Action) (fs : FS) (A : List Action),
      (scaffoldLoop ra dry force dfc entries acts fs).1 = some A →
      A = acts ++ entries.map (plannedAction ra) := by
  intro entries
  induction entries with
  | nil =>
    intro acts fs A h
    simp only [scaffoldLoop, Option.some.injEq] at h
    simp [← h]
  | cons e rest ih =>
    obtain ⟨rel, is_dir⟩ := e
    intro acts fs A h
    cases is_dir with
    | true =>
      cases dry with
      | true =>
        simp only [scaffoldLoop, if_true] at h
        have := ih _ _ _ h
        simp [this, plannedAction]
      | false =>
        simp only [scaffoldLoop, if_false] at h
        cases hm : mkdirParents fs (ra ++ splitSegs rel) with
        | none => rw [hm] at h; cases h
        | some fs1 =>
          rw [hm] at h
          have := ih _ _ _ h
          simp [this, plannedAction]
    | false =>
      cases dry with
      | true =>
        simp only [scaffoldLoop, if_true] at h
        have := ih _ _ _ h
        simp [this, plannedAction]
      | false =>
        simp only [scaffoldLoop, if_false] at h
        cases hm : touchFile force dfc fs (ra ++ splitSegs rel) with
        | none => rw [hm] at h; cases h
        | some fs1 =>
          rw [hm] at h
          have := ih _ _ _ h
          simp [this, plannedAction]

theorem scaffoldLoop_dry (ra : PathSegs) (force : Bool) (dfc : PyStr) :
    ∀ (entries : List (PyStr × Bool)) (acts : List Action) (fs : FS),
      scaffoldLoop ra true force dfc entries acts fs =
        (some (acts ++ entries.map (plannedAction ra)), fs) := by
  intro entries
  induction entries with
  | nil => intro acts fs; simp [scaffoldLoop]
  | cons e rest ih =>
    obtain ⟨rel, is_dir⟩ := e
    intro acts fs
    cases is_dir with
    | true => simp [scaffoldLoop, ih, plannedAction]
    | false => simp [scaffoldLoop, ih, plannedAction]

/-- Whenever `create_scaffold` returns an action list at all, it is the
planned list, which depends only on `(root, entries, base_root)`. -/
theorem create_scaffold_acts (root : PathSegs) (entries : List (PyStr × Bool))
    (base : PathSegs) (dry force : Bool) (dfc : PyStr) (fs : FS) (A : List Action)
    (h : (create_scaffold root entries base dry force dfc fs).1 = some A) :
    A = plannedActions root entries base := by
  unfold create_scaffold at h
  cases dry with
  | true =>
    rw [if_pos rfl, scaffoldLoop_dry] at h
    simp at h
    simp [← h, plannedActions]
  | false =>
    rw [if_neg (by simp)] at h
    cases hm : mkdirParents fs (base ++ root) with
    | none => rw [hm] at h; cases h
    | some fs1 =>
      rw [hm] at h
      have := scaffoldLoop_acts _ _ _ _ _ _ _ _ h
      simp [this, plannedActions]

/-- A dry run returns the planned action list and leaves the state untouched. -/
theorem create_scaffold_dry (root : PathSegs) (entries : List (PyStr × Bool))
    (base : PathSegs) (force : Bool) (dfc : PyStr) (fs : FS) :
    create_scaffold root entries base true force dfc fs =
      (some (plannedActions root entries base), fs) := by
  unfold create_scaffold
  rw [if_pos rfl, scaffoldLoop_dry]
  simp [plannedActions]

/-! ## State-subsumption lemmas for the Scaffold Builder -/

theorem FS.Sub.rfl (fs : FS) : FS.Sub fs fs := fun _ _ h => h

theorem FS.Sub.trans {a b c : FS} (h1 : FS.Sub a b) (h2 : FS.Sub b c) :
    FS.Sub a c := fun p n h => h2 p n (h1 p n h)

theorem FS.lookup_set_self (fs : FS) (p : PathSegs) (n : Node) :
    (fs.set p n).lookup p = some n := by
  simp [FS.set, FS.lookup]

theorem FS.sub_set (fs : FS) (p : PathSegs) (n : Node) (h : fs.lookup p = none) :
    FS.Sub fs (fs.set p n) := by
  intro q m hq
  simp only [FS.set, FS.lookup]
  by_cases hpq : p = q
  · subst hpq; rw [h] at hq; cases hq
  · simp [hpq, hq]

theorem mkdirPrefixes_sub :
    ∀ (segs : List PyStr) (fs : FS) (done : PathSegs) (g : FS),
      mkdirPrefixes fs done segs = some g → FS.Sub fs g := by
  intro segs
  induction segs with
  | nil =>
    intro fs done g h
    simp only [mkdirPrefixes, Option.some.injEq] at h
    subst h; exact FS.Sub.rfl fs
  | cons seg rest ih =>
    intro fs done g h
    simp only [mkdirPrefixes] at h
    cases hq : FS.lookup fs (done ++ [seg]) with
    | none =>
      rw [hq] at h
      exact (FS.sub_set fs _ Node.dir hq).trans (ih _ _ _ h)
    | some n =>
      cases n with
      | dir => rw [hq] at h; exact ih _ _ _ h
      | file c => rw [hq] at h; cases h

theorem mkdirPrefixes_replay :
    ∀ (segs : List PyStr) (fs : FS) (done : PathSegs) (g h : FS),
      mkdirPrefixes fs done segs = some g → FS.Sub g h →
      mkdirPrefixes h done segs = some h := by
  intro segs
  induction segs with
  | nil => intro fs done g h _ _; rfl
  | cons seg rest ih =>
    intro fs done g h heq hsub
    simp only [mkdirPrefixes] at heq ⊢
    cases hq : FS.lookup fs (done ++ [seg]) with
    | none =>
      rw [hq] at heq
      have hdir : FS.lookup h (done ++ [seg]) = some Node.dir :=
        hsub _ _ (mkdirPrefixes_sub _ _ _ _ heq _ _ (FS.lookup_set_self fs _ Node.dir))
      rw [hdir]
      exact ih _ _ _ _ heq hsub
    | some n =>
      cases n with
      | dir =>
        rw [hq] at heq
        have hdir : FS.lookup h (done ++ [seg]) = some Node.dir :=
          hsub _ _ (mkdirPrefixes_sub _ _ _ _ heq _ _ hq)
        rw [hdir]
        exact ih _ _ _ _ heq hsub
      | file c => rw [hq] at heq; cases heq

theorem mkdirParents_sub (fs : FS) (q : PathSegs) (g : FS)
    (h : mkdirParents fs q = some g) : FS.Sub fs g :=
  mkdirPrefixes_sub q fs [] g h

theorem mkdirParents_replay (fs : FS) (q : PathSegs) (g h : FS)
    (heq : mkdirParents fs q = some g) (hsub : FS.Sub g h) :
    mkdirParents h q = some h :=
  mkdirPrefixes_replay q fs [] g h heq hsub

theorem touchFile_sub (dfc : PyStr) (fs : FS) (t : PathSegs) (g : FS)
    (h : touchFile false dfc fs t = some g) : FS.Sub fs g := by
  unfold touchFile at h
  cases hm : mkdirParents fs t.dropLast with
  | none => rw [hm] at h; cases h
  | some fs1 =>
    simp only [hm] at h
    have hsub1 : FS.Sub fs fs1 := mkdirPrefixes_sub _ _ _ _ hm
    cases hl : FS.lookup fs1 t with
    | none =>
      simp only [hl, Option.some.injEq] at h
      subst h
      exact hsub1.trans (FS.sub_set fs1 t _ hl)
    | some n =>
      simp [hl] at h
      subst h
      exact hsub1

theorem touchFile_none_dfc (force : Bool) (dfc dfc' : PyStr) (fs : FS) (t : PathSegs)
    (h : touchFile force dfc fs t = none) : touchFile force dfc' fs t = none := by
  unfold touchFile at h ⊢
  cases hm : mkdirParents fs t.dropLast with
  | none => simp [hm]
  | some fs1 =>
    simp only [hm] at h
    exfalso
    cases hl : FS.lookup fs1 t with
    | none => simp [hl] at h
    | some n =>
      simp only [hl] at h
      by_cases h1 : (force && n.isFile && n.size == 0) = true
      · rw [if_pos h1] at h; cases h
      · rw [if_neg h1] at h
        by_cases h2 : (force && n.isFile) = true
        · rw [if_pos h2] at h; cases h
        · rw [if_neg h2] at h; cases h

theorem touchFile_replay (dfc dfc' : PyStr) (fs : FS) (t : PathSegs) (g h : FS)
    (ht : touchFile false dfc fs t = some g) (hs : FS.Sub g h) :
    touchFile false dfc' h t = some h := by
  unfold touchFile at ht ⊢
  cases hm : mkdirParents fs t.dropLast with
  | none => rw [hm] at ht; cases ht
  | some fs1 =>
    simp only [hm] at ht
    have hsub1g : FS.Sub fs1 g := by
      cases hl : FS.lookup fs1 t with
      | none =>
        simp only [hl, Option.some.injEq] at ht
        subst ht
        exact FS.sub_set fs1 t _ hl
      | some n =>
        simp [hl] at ht
        subst ht
        exact FS.Sub.rfl _
    have hrep : mkdirParents h t.dropLast = some h :=
      mkdirPrefixes_replay _ _ _ _ _ hm (hsub1g.trans hs)
    simp only [hrep]
    cases hl : FS.lookup fs1 t with
    | none =>
      simp only [hl, Option.some.injEq] at ht
      have hht : FS.lookup h t = some (Node.file dfc) := by
        apply hs
        rw [← ht]
        exact FS.lookup_set_self fs1 t _
      rw [hht]
      simp
    | some n =>
      simp [hl] at ht
      subst ht
      have hht : FS.lookup h t = some n := hs _ _ (hsub1g _ _ hl)
      rw [hht]
      simp

theorem scaffoldLoop_sub (ra : PathSegs) (dfc : PyStr) :
    ∀ (entries : List (PyStr × Bool)) (acts : List Action) (fs : FS),
      FS.Sub fs (scaffoldLoop ra false false dfc entries acts fs).2 := by
  intro entries
  induction entries with
  | nil => intro acts fs; exact FS.Sub.rfl fs
  | cons e rest ih =>
    obtain ⟨rel, is_dir⟩ := e
    intro acts fs
    cases is_dir with
    | true =>
      simp only [scaffoldLoop, if_true, if_false]
      cases hm : mkdirParents fs (ra ++ splitSegs rel) with
      | none => exact FS.Sub.rfl fs
      | some fs1 => exact (mkdirPrefixes_sub _ _ _ _ hm).trans (ih _ _)
    | false =>
      simp only [scaffoldLoop, if_true, if_false]
      cases hm : touchFile false dfc fs (ra ++ splitSegs rel) with
      | none => exact FS.Sub.rfl fs
      | some fs1 => exact (touchFile_sub _ _ _ _ hm).trans (ih _ _)

theorem scaffoldLoop_replay (ra : PathSegs) (dfc dfc' : PyStr) :
    ∀ (entries : List (PyStr × Bool)) (acts acts2 : List Action) (fs g : FS),
      (scaffoldLoop ra false false dfc entries acts fs).2 = g →
      (scaffoldLoop ra false false dfc' entries acts2 g).2 = g := by
  intro entries
  induction entries with
  | nil => intro acts acts2 fs g h; rfl
  | cons e rest ih =>
    obtain ⟨rel, is_dir⟩ := e
    intro acts acts2 fs g h
    cases is_dir with
    | true =>
      simp only [scaffoldLoop, Bool.false_eq_true, if_false] at h ⊢
      cases hm : mkdirParents fs (ra ++ splitSegs rel) with
      | none =>
        simp only [hm] at h
        subst h
        simp [hm]
      | some fs1 =>
        simp only [hm] at h
        have hsub : FS.Sub fs1 g := by
          rw [← h]; exact scaffoldLoop_sub ra dfc rest _ fs1
        simp only [mkdirParents_replay fs _ fs1 g hm hsub]
        exact ih _ _ _ _ h
    | false =>
      simp only [scaffoldLoop, Bool.false_eq_true, if_false] at h ⊢
      cases hm : touchFile false dfc fs (ra ++ splitSegs rel) with
      | none =>
        simp only [hm] at h
        subst h
        simp [touchFile_none_dfc false dfc dfc' fs _ hm]
      | some fs1 =>
        simp only [hm] at h
        have hsub : FS.Sub fs1 g := by
          rw [← h]; exact scaffoldLoop_sub ra dfc rest _ fs1
        simp only [touchFile_replay dfc dfc' fs _ fs1 g hm hsub]
        exact ih _ _ _ _ h

/-- A non-forced, non-dry run only adds bindings: every binding of the initial
state is still visible afterwards. -/
theorem create_scaffold_sub (root : PathSegs) (entries : List (PyStr × Bool))
    (base : PathSegs) (dfc : PyStr) (fs : FS) :
    FS.Sub fs (create_scaffold root entries base false false dfc fs).2 := by
  unfold create_scaffold
  rw [if_neg (by simp)]
  cases hm : mkdirParents fs (base ++ root) with
  | none => exact FS.Sub.rfl fs
  | some fs1 => exact (mkdirPrefixes_sub _ _ _ _ hm).trans (scaffoldLoop_sub _ _ _ _ _)

/-- Replaying a non-forced, non-dry run on its own final state changes
nothing. -/
theorem create_scaffold_replay (root : PathSegs) (entries : List (PyStr × Bool))
    (base : PathSegs) (dfc dfc' : PyStr) (fs g : FS)
    (h : (create_scaffold root entries base false false dfc fs).2 = g) :
    (create_scaffold root entries base false false dfc' g).2 = g := by
  unfold create_scaffold at h ⊢
  rw [if_neg (by simp)] at h ⊢
  cases hm : mkdirParents fs (base ++ root) with
  | none =>
    simp only [hm] at h
    subst h
    simp [hm]
  | some fs1 =>
    simp only [hm] at h
    have hsub : FS.Sub fs1 g := by
      rw [← h]; exact scaffoldLoop_sub _ dfc entries _ fs1
    simp only [mkdirParents_replay fs _ fs1 g hm hsub]
    exact scaffoldLoop_replay _ _ _ _ _ _ _ _ h

/-! ## Claim C4 -/

/-- C4 counterexample: the target exists as an *empty* file, `force` is not
set and `defaultFileContent` is `"X"`.  The claim says the content is written;
the code's `else: continue` branch skips any existing target when `force` is
unset, so the file keeps its empty content. -/
theorem C4_counterexample :
    FS.lookup ((create_scaffold [pyStr ("r")] [(pyStr ("f.txt"), false)] []
        false false (pyStr ("X"))
        [([pyStr ("r")], Node.dir), ([pyStr ("r"), pyStr ("f.txt")], Node.file [])]).2)
      [pyStr ("r"), pyStr ("f.txt")] = some (Node.file []) ∧
    Node.file [] ≠ Node.file (pyStr ("X")) := by
  refine ⟨by decide, by decide⟩

/-- C4 amended: with `dryRun` false, for a file entry whose parent `mkdir`
succeeded: if the target does not exist, or `force` is set and the target is a
regular file (empty or not), `defaultFileContent` is written as the full
content; otherwise — the target exists and either `force` is unset (even for
an empty file) or the target is not a regular file — it is left untouched.
In every case the `touch` action is still recorded in the emitted list. -/
theorem C4_write_policy_amended (force : Bool) (dfc : PyStr) (fs fs1 : FS)
    (target : PathSegs)
    (hp : mkdirParents fs target.dropLast = some fs1) :
    (FS.lookup fs1 target = none →
      touchFile force dfc fs target = some (fs1.set target (Node.file dfc)) ∧
      FS.lookup (fs1.set target (Node.file dfc)) target = some (Node.file dfc)) ∧
    (∀ n, FS.lookup fs1 target = some n → (force && n.isFile) = true →
      touchFile force dfc fs target = some (fs1.set target (Node.file dfc)) ∧
      FS.lookup (fs1.set target (Node.file dfc)) target = some (Node.file dfc)) ∧
    (∀ n, FS.lookup fs1 target = some n → (force && n.isFile) = false →
      touchFile force dfc fs target = some fs1) ∧
    (∀ (root : PathSegs) (entries : List (PyStr × Bool)) (base : PathSegs)
        (dry : Bool) (fs0 : FS) (A : List Action),
      (create_scaffold root entries base dry force dfc fs0).1 = some A →
      ∀ rel, (rel, false) ∈ entries →
        (("touch" : String), base ++ root ++ splitSegs rel) ∈ A) := by
  refine ⟨?_, ?_, ?_, ?_⟩
  · intro h
    refine ⟨?_, FS.lookup_set_self _ _ _⟩
    unfold touchFile
    simp [hp, h]
  · intro n hn hf
    unfold touchFile
    by_cases hz : (n.size == 0) = true
    · constructor
      · simp [hp, hn, hf, hz]
      · exact FS.lookup_set_self _ _ _
    · constructor
      · simp [hp, hn, hf, hz]
      · exact FS.lookup_set_self _ _ _
  · intro n hn hf
    unfold touchFile
    simp [hp, hn, hf]
  · intro root entries base dry fs0 A hA rel hrel
    rw [create_scaffold_acts _ _ _ _ _ _ _ _ hA]
    unfold plannedActions
    exact List.mem_cons_of_mem _ (List.mem_map.mpr ⟨(rel, false), hrel, rfl⟩)

/-- Witness for the amended C4 at a concrete input (the missing-target case). -/
theorem C4_write_policy_amended_witness :
    touchFile false (pyStr ("Z")) [([pyStr ("d")], Node.dir)]
        [pyStr ("d"), pyStr ("n.txt")] =
      some (FS.set [([pyStr ("d")], Node.dir)] [pyStr ("d"), pyStr ("n.txt")]
        (Node.file (pyStr ("Z")))) ∧
    FS.lookup (FS.set [([pyStr ("d")], Node.dir)] [pyStr ("d"), pyStr ("n.txt")]
        (Node.file (pyStr ("Z")))) [pyStr ("d"), pyStr ("n.txt")] =
      some (Node.file (pyStr ("Z"))) :=
  (C4_write_policy_amended false (pyStr ("Z")) [([pyStr ("d")], Node.dir)]
      [([pyStr ("d")], Node.dir)] [pyStr ("d"), pyStr ("n.txt")] (by decide)).1 (by decide)

/-! ## Claim C7 -/

/-- C7: running the Scaffold Builder twice in sequence with `force` false and
`dryRun` false over the same `(root, entries, base_root)` yields the same
final filesystem state as running it once — the second run performs no write
at all (its final state is literally the first run's). -/
theorem C7_idempotent (root : PathSegs) (entries : List (PyStr × Bool))
    (base : PathSegs) (dfc : PyStr) (fs : FS) :
    (create_scaffold root entries base false false dfc
        ((create_scaffold root entries base false false dfc fs).2)).2 =
      (create_scaffold root entries base false false dfc fs).2 :=
  create_scaffold_replay root entries base dfc dfc fs _ rfl

/-! ## Claim C8 -/

/-- C8 counterexample: when `base_root/root` already exists as a file, the
non-dry invocation raises `FileExistsError` in the root `mkdir` and returns no
action list, while the dry invocation returns the one-action list — so the
action lists are not identical for every starting filesystem state. -/
theorem C8_counterexample :
    (create_scaffold [pyStr ("r")] [] [] true false []
        [([pyStr ("r")], Node.file [])]).1 ≠
      (create_scaffold [pyStr ("r")] [] [] false false []
        [([pyStr ("r")], Node.file [])]).1 := by
  decide

/-- C8 amended: a dry run performs zero filesystem mutations for every input
and starting state, and whenever the non-dry invocation completes without
raising, the dry invocation returns the identical action list. -/
theorem C8_dry_run_amended (root : PathSegs) (entries : List (PyStr × Bool))
    (base : PathSegs) (force : Bool) (dfc : PyStr) (fs : FS) :
    (create_scaffold root entries base true force dfc fs).2 = fs ∧
    ∀ A, (create_scaffold root entries base false force dfc fs).1 = some A →
      (create_scaffold root entries base true force dfc fs).1 = some A := by
  constructor
  · rw [create_scaffold_dry]
  · intro A h
    rw [create_scaffold_dry]
    exact congrArg some (create_scaffold_acts _ _ _ _ _ _ _ _ h).symm

/-- Witness for the amended C8 at a concrete input. -/
theorem C8_dry_run_amended_witness :
    (create_scaffold [pyStr ("w8")] [] [] true false [] []).1 =
      some [(("mkdir" : String), [pyStr ("w8")])] :=
  (C8_dry_run_amended [pyStr ("w8")] [] [] false [] []).2
    [(("mkdir" : String), [pyStr ("w8")])] (by decide)

/-! ## Claim C9 -/

/-- C9: with `force` false and `dryRun` false, every file binding of the
starting state — empty files included — is unchanged by the run: no
pre-existing file is ever overwritten without `force`. -/
theorem C9_preexisting_preserved (root : PathSegs) (entries : List (PyStr × Bool))
    (base : PathSegs) (dfc : PyStr) (fs : FS) (p : PathSegs) (c : PyStr)
    (h : FS.lookup fs p = some (Node.file c)) :
    FS.lookup ((create_scaffold root entries base false false dfc fs).2) p =
      some (Node.file c) :=
  create_scaffold_sub root entries base dfc fs p _ h

/-- Witness for C9 at a concrete input. -/
theorem C9_preexisting_preserved_witness :
    FS.lookup ((create_scaffold [pyStr ("r")] [(pyStr ("e.txt"), false)] []
        false false (pyStr ("Y"))
        [([pyStr ("q.txt")], Node.file (pyStr ("keep")))]).2)
      [pyStr ("q.txt")] = some (Node.file (pyStr ("keep"))) :=
  C9_preexisting_preserved [pyStr ("r")] [(pyStr ("e.txt"), false)] []
    (pyStr ("Y")) [([pyStr ("q.txt")], Node.file (pyStr ("keep")))]
    [pyStr ("q.txt")] (pyStr ("keep")) (by decide)

/-! ## Claim C10 -/

/-- C10 counterexample: two invocations agreeing on `(root, entries,
base_root)` (both non-dry, non-forced, same content) but on different starting
states do not return identical action lists: on the empty state the run
succeeds, on a state where `root` is a file it raises and returns none. -/
theorem C10_counterexample :
    (create_scaffold [pyStr ("r")] [] [] false false [] ([] : FS)).1 ≠
      (create_scaffold [pyStr ("r")] [] [] false false []
        [([pyStr ("r")], Node.file (pyStr ("x")))]).1 := by
  decide

/-- C10 amended: among invocations that complete without raising, the action
list is determined solely by `(root, entries, base_root)` — independent of the
`dry`, `force` and `default_file_content` arguments and of the starting
filesystem state — and a file entry whose write is skipped still contributes
its `touch` action to the list. -/
theorem C10_actions_amended (root : PathSegs) (entries : List (PyStr × Bool))
    (base : PathSegs) (d1 f1 : Bool) (c1 : PyStr) (fs1 : FS)
    (d2 f2 : Bool) (c2 : PyStr) (fs2 : FS) (A1 A2 : List Action)
    (h1 : (create_scaffold root entries base d1 f1 c1 fs1).1 = some A1)
    (h2 : (create_scaffold root entries base d2 f2 c2 fs2).1 = some A2) :
    A1 = A2 ∧
      ∀ rel, (rel, false) ∈ entries →
        (("touch" : String), base ++ root ++ splitSegs rel) ∈ A1 := by
  have e1 := create_scaffold_acts _ _ _ _ _ _ _ _ h1
  have e2 := create_scaffold_acts _ _ _ _ _ _ _ _ h2
  refine ⟨e1.trans e2.symm, ?_⟩
  intro rel hrel
  rw [e1]
  unfold plannedActions
  exact List.mem_cons_of_mem _ (List.mem_map.mpr ⟨(rel, false), hrel, rfl⟩)

/-- Witness for the amended C10 at a concrete input (a dry and a non-dry run
over different states). -/
theorem C10_actions_amended_witness :
    [(("mkdir" : String), [pyStr ("w10")]),
        (("touch" : String), [pyStr ("w10"), pyStr ("t.txt")])] =
      [(("mkdir" : String), [pyStr ("w10")]),
        (("touch" : String), [pyStr ("w10"), pyStr ("t.txt")])] ∧
    ∀ rel, (rel, false) ∈ [(pyStr ("t.txt"), false)] →
      (("touch" : String), [] ++ [pyStr ("w10")] ++ splitSegs rel) ∈
        [(("mkdir" : String), [pyStr ("w10")]),
          (("touch" : String), [pyStr ("w10"), pyStr ("t.txt")])] :=
  C10_actions_amended [pyStr ("w10")] [(pyStr ("t.txt"), false)] []
    true false [] [] false false (pyStr ("c")) [([pyStr ("z")], Node.dir)]
    _ _ (by decide) (by decide)

/-! ## Claim C6 -/

theorem splitSegs_ne_nil : ∀ (s : PyStr), splitSegs s ≠ [] := by
  intro s
  cases s with
  | nil => simp [splitSegs]
  | cons c rest =>
    simp only [splitSegs]
    by_cases hc : c = '/'
    · simp [hc]
    · simp only [if_neg hc]
      cases splitSegs rest <;> simp

theorem splitSegs_no_slash : ∀ (s : PyStr), ('/' : Char) ∉ s → splitSegs s = [s] := by
  intro s
  induction s with
  | nil => intro _; rfl
  | cons c rest ih =>
    intro h
    have hc : c ≠ '/' := fun e => h (by simp [e])
    have hr : ('/' : Char) ∉ rest := fun e => h (List.mem_cons_of_mem c e)
    simp only [splitSegs, if_neg hc]
    rw [ih hr]

theorem splitSegs_append_slash : ∀ (x : PyStr), ('/' : Char) ∉ x →
    ∀ (t : PyStr), splitSegs (x ++ '/' :: t) = x :: splitSegs t := by
  intro x
  induction x with
  | nil => intro _ t; simp [splitSegs]
  | cons c rest ih =>
    intro h t
    have hc : c ≠ '/' := fun e => h (by simp [e])
    have hr : ('/' : Char) ∉ rest := fun e => h (List.mem_cons_of_mem c e)
    rw [List.cons_append]
    simp only [splitSegs, if_neg hc]
    rw [ih hr t]

theorem splitSegs_joinSlash : ∀ (l : List PyStr), l ≠ [] →
    (∀ x ∈ l, ('/' : Char) ∉ x) → splitSegs (joinSlash l) = l := by
  intro l
  induction l with
  | nil => intro h _; exact absurd rfl h
  | cons x ys ih =>
    intro _ hall
    cases ys with
    | nil => exact splitSegs_no_slash x (hall x (by simp))
    | cons y zs =>
      have hx : ('/' : Char) ∉ x := hall x (by simp)
      simp only [joinSlash]
      rw [splitSegs_append_slash x hx,
        ih (by simp) (fun z hz => hall z (List.mem_cons_of_mem x hz))]

theorem relPathOf_eq (s2 : List PyStr) (fn : PyStr) :
    relPathOf s2 fn = joinSlash (s2 ++ [fn]) := by
  cases s2 with
  | nil => simp [relPathOf, joinSlash]
  | cons a tl => simp [relPathOf]

/-- The invariant holds for the initial parser state. -/
theorem StackInv.init : StackInv ⟨[], []⟩ := by
  refine ⟨by simp, by simp, ?_⟩
  intro i hi
  simp at hi

/-- Appending one parsed entry (with the popped stack prefix) preserves the
invariant, provided the new filename is slash-free. -/
theorem StackInv.step (es : List (PyStr × Bool)) (stack : List PyStr)
    (d0 : Nat) (hst : StackInv ⟨es, stack⟩)
    (fn : PyStr) (hfn : ('/' : Char) ∉ fn) (b : Bool) :
    StackInv ⟨es ++ [(relPathOf (stack.take d0) fn, b)],
      if b then stack.take d0 ++ [fn] else stack.take d0⟩ := by
  obtain ⟨hA, hB, hC⟩ := hst
  dsimp only at hA hB hC
  set s2 : List PyStr := stack.take d0 with hs2
  have hs2sub : ∀ x ∈ s2, x ∈ stack := fun x hx => List.take_subset d0 stack hx
  have hs2len : s2.length ≤ stack.length := by
    rw [hs2, List.length_take]; omega
  have hs2free : ∀ x ∈ s2, ('/' : Char) ∉ x := fun x hx => hA x (hs2sub x hx)
  have hmemB : ∀ k, k < s2.length → (joinSlash (s2.take (k + 1)), true) ∈ es := by
    intro k hk
    have hklen : k < stack.length := by omega
    have hk0 : k + 1 ≤ d0 := by
      rw [hs2, List.length_take] at hk; omega
    rw [hs2, List.take_take, Nat.min_eq_left hk0]
    exact hB k hklen
  have hparent : 1 ≤ s2.length → (joinSlash s2, true) ∈ es := by
    intro h1
    have hm := hmemB (s2.length - 1) (by omega)
    rw [Nat.sub_add_cancel h1, List.take_of_length_le (Nat.le_refl _)] at hm
    exact hm
  have hCstep : parentsPrecede (es ++ [(relPathOf s2 fn, b)]) := by
    intro i hi hseg
    have hi2 : i < es.length + 1 := by
      have hh := hi
      simp only [List.length_append, List.length_singleton] at hh
      exact hh
    rcases Nat.lt_or_ge i es.length with hlt | hge
    · have hget : (es ++ [(relPathOf s2 fn, b)]).get ⟨i, hi⟩ = es.get ⟨i, hlt⟩ := by
        rw [List.get_eq_getElem, List.get_eq_getElem]
        exact List.getElem_append_left hlt
      rw [hget] at hseg ⊢
      rw [List.take_append_of_le_length (by omega)]
      exact hC i hlt hseg
    · have hieq : i = es.length := by omega
      subst hieq
      have hget : (es ++ [(relPathOf s2 fn, b)]).get ⟨es.length, hi⟩ =
          (relPathOf s2 fn, b) := by
        rw [List.get_eq_getElem]
        simp
      rw [hget] at hseg ⊢
      dsimp only at hseg ⊢
      rw [List.take_append_of_le_length (Nat.le_refl _), List.take_length]
      by_cases hne : s2 = []
      · exfalso
        have hrel : relPathOf s2 fn = fn := by rw [hne]; simp [relPathOf]
        rw [hrel, splitSegs_no_slash fn hfn] at hseg
        simp at hseg
      · have hsegs : splitSegs (relPathOf s2 fn) = s2 ++ [fn] := by
          rw [relPathOf_eq]
          refine splitSegs_joinSlash (s2 ++ [fn]) (by simp) ?_
          intro x hx
          rcases List.mem_append.mp hx with hx | hx
          · exact hs2free x hx
          · rw [List.mem_singleton.mp hx]; exact hfn
        have hpp : parentPrefix (relPathOf s2 fn) = joinSlash s2 := by
          rw [parentPrefix, hsegs, List.dropLast_concat]
        rw [hpp]
        have hlen1 : 1 ≤ s2.length := by
          have := List.length_pos.mpr hne
          omega
        exact hparent hlen1
  cases b with
  | true =>
    show StackInv ⟨es ++ [(relPathOf s2 fn, true)], s2 ++ [fn]⟩
    refine ⟨?_, ?_, hCstep⟩
    · intro d hd
      dsimp only at hd
      rcases List.mem_append.mp hd with hd | hd
      · exact hs2free d hd
      · rw [List.mem_singleton.mp hd]; exact hfn
    · intro k hk
      dsimp only at hk ⊢
      have hk2 : k < s2.length + 1 := by
        simp only [List.length_append, List.length_singleton] at hk
        exact hk
      rcases Nat.lt_or_ge k s2.length with hlt | hge
      · rw [List.take_append_of_le_length (by omega)]
        exact List.mem_append_left _ (hmemB k hlt)
      · have hkeq : k = s2.length := by omega
        subst hkeq
        rw [List.take_of_length_le (by simp), relPathOf_eq]
        exact List.mem_append_right _ (by simp)
  | false =>
    show StackInv ⟨es ++ [(relPathOf s2 fn, false)], s2⟩
    refine ⟨?_, ?_, hCstep⟩
    · intro d hd
      dsimp only at hd
      exact hs2free d hd
    · intro k hk
      dsimp only at hk ⊢
      exact List.mem_append_left _ (hmemB k hk)

theorem processLine_inv (lines : List PyStr) (st : PState) (ln : PyStr) (st2 : PState)
    (hfn : ('/' : Char) ∉ lineFilename ln)
    (hst : StackInv st)
    (h : processLine lines st ln = some st2) : StackInv st2 := by
  unfold processLine at h
  by_cases h1 : lineLabel ln = []
  · rw [if_pos h1] at h
    injection h with h
    subst h
    exact hst
  rw [if_neg h1] at h
  by_cases h2 : lineName ln = []
  · rw [if_pos h2] at h
    injection h with h
    subst h
    exact hst
  rw [if_neg h2] at h
  cases hd : lineTreeDepth ln with
  | zero => rw [hd, popWhileGe_zero] at h; cases h
  | succ d2 =>
    rw [hd, popWhileGe_pos _ _ (by omega)] at h
    simp only [Nat.add_sub_cancel] at h
    injection h with h
    subst h
    obtain ⟨es, stack⟩ := st
    exact StackInv.step es stack d2 hst (lineFilename ln) hfn _

theorem processLines_inv (lines : List PyStr) :
    ∀ (rest : List PyStr) (st st2 : PState),
      (∀ ln ∈ rest, ('/' : Char) ∉ lineFilename ln) →
      StackInv st → processLines lines rest st = some st2 → StackInv st2 := by
  intro rest
  induction rest with
  | nil =>
    intro st st2 _ hst h
    injection h with h
    subst h
    exact hst
  | cons ln tl ih =>
    intro st st2 hfn hst h
    simp only [processLines] at h
    cases hmid : processLine lines st ln with
    | none => rw [hmid] at h; cases h
    | some st1 =>
      rw [hmid] at h
      exact ih st1 st2 (fun l hl => hfn l (by simp [hl]))
        (processLine_inv lines st ln st1 (hfn ln (by simp)) hst hmid) h

/-- C6 counterexample: the candidate line `"├── a/b"` (a label with an
interior slash) yields the single entry `("a/b", file)` whose path has two
segments, yet no earlier directory entry `"a"` exists — parents do not always
precede children. -/
theorem C6_counterexample :
    normalize_root_and_entries [pyStr ("root/"), pyStr ("├── a/b")] =
      some (pyStr ("root"), [(pyStr ("a/b"), false)]) ∧
    ¬ parentsPrecede [(pyStr ("a/b"), false)] := by
  refine ⟨by decide, ?_⟩
  intro h
  have h2 := h 0 (by decide) (by decide)
  simp at h2

/-- C6 amended: provided every line's extracted filename is free of interior
path separators (so that a single diagram label cannot smuggle a multi-segment
path into one entry), every Entry list produced by the Tree Parser satisfies
the parents-precede-children property: an entry whose relative path has more
than one segment is preceded by a directory entry for its immediate parent
prefix. -/
theorem C6_parents_amended (lines : List PyStr)
    (hfn : ∀ ln ∈ lines, ('/' : Char) ∉ lineFilename ln) :
    ∀ root entries, normalize_root_and_entries lines = some (root, entries) →
      parentsPrecede entries := by
  intro root entries h
  cases lines with
  | nil =>
    simp only [normalize_root_and_entries, Option.some.injEq, Prod.mk.injEq] at h
    rw [← h.2]
    intro i hi
    simp at hi
  | cons l0 rest =>
    simp only [normalize_root_and_entries] at h
    cases htok : (rootTokens l0).getLast? with
    | none => rw [htok] at h; cases h
    | some tok =>
      rw [htok] at h
      cases hpl : processLines (l0 :: rest) rest ⟨[], []⟩ with
      | none => rw [hpl] at h; cases h
      | some st =>
        rw [hpl] at h
        have hinv := processLines_inv (l0 :: rest) rest ⟨[], []⟩ st
          (fun l hl => hfn l (List.mem_cons_of_mem l0 hl)) StackInv.init hpl
        simp only [Option.some.injEq, Prod.mk.injEq] at h
        rw [← h.2]
        exact hinv.2.2

/-- Witness for the amended C6 at a concrete input (the C1 tree). -/
theorem C6_parents_amended_witness :
    parentsPrecede
      [(pyStr ("a"), true), (pyStr ("a/b.txt"), false), (pyStr ("c.txt"), false)] :=
  C6_parents_amended C1lines (by decide) (pyStr ("root")) _ (by decide)

end ScaffoldTree
